import Mathlib

/-!
Verification of the streaming transcription core of agent-notes-cpp.

The development shallowly embeds, in Lean 4:
  * `TranscriptDeduplicator` (src/TranscriptDeduplicator.cpp): word-level
    overlap detection and removal between consecutive transcript segments;
  * the stitch/punctuation corrector and the consumer-loop buffering policy of
    `WhisperTranscriber` (src/WhisperTranscriber.cpp);
  * the ring buffer `AudioBuffer` (src/AudioBuffer.cpp).

Strings are embedded as `List Char`; C++ `double`/`float` values that the
claims depend on only through exact arithmetic and comparisons are embedded
as `ℚ`; `size_t` values as `Nat`.
-/

namespace AgentNotes

/-! ## Classic edit distance (specification side)

`editDistance` is the textbook single-character insert/delete/substitute
edit distance, written as the classic recursion on the heads of the two
strings.  It is the reference definition the spec appeals to; the theorem
`levenshteinDistance_eq_editDistance` below proves the C++ dynamic-programming
table computes exactly this function. -/

def editDistance : List Char → List Char → Nat
  | [], t => t.length
  | s, [] => s.length
  | a :: s, b :: t =>
      if a = b then editDistance s t
      else 1 + min (editDistance s (b :: t)) (min (editDistance (a :: s) t) (editDistance s t))
termination_by s t => s.length + t.length
decreasing_by all_goals (simp [List.length_cons]; try omega)

theorem editDistance_nil_left (t : List Char) : editDistance [] t = t.length := by
  simp [editDistance]

theorem editDistance_cons_nil (a : Char) (s : List Char) :
    editDistance (a :: s) [] = s.length + 1 := by
  simp [editDistance]

theorem editDistance_cons_cons (a b : Char) (s t : List Char) :
    editDistance (a :: s) (b :: t) =
      if a = b then editDistance s t
      else 1 + min (editDistance s (b :: t))
        (min (editDistance (a :: s) t) (editDistance s t)) := by
  rw [editDistance]

theorem editDistance_nil_right (s : List Char) : editDistance s [] = s.length := by
  cases s with
  | nil => simp [editDistance]
  | cons a s => simp [editDistance]

set_option maxHeartbeats 2000000 in
theorem min_regroup (s t w c1 c2 c3 p q r : Nat) :
    1 + min (1 + min s (min t w)) (min (1 + min c1 (min c2 c3)) (1 + min p (min q r))) =
    1 + min (1 + min s (min c1 p)) (min (1 + min t (min c2 q)) (1 + min w (min c3 r))) := by
  have h : ∀ a b : Nat, min (1 + a) (1 + b) = 1 + min a b := fun a b => by omega
  simp only [h, Nat.add_left_cancel_iff]
  apply le_antisymm <;> simp [le_min_iff, min_le_iff]

set_option maxHeartbeats 1600000 in
/-- Edit distance satisfies the mirror-image recursion on the *last*
characters of the two strings.  This is the bridge between the classic
head recursion and the prefix-indexed dynamic-programming table used by
the C++ implementation. -/
theorem editDistance_snoc_aux :
    ∀ (n : Nat) (u v : List Char), u.length + v.length ≤ n → ∀ (a b : Char),
      editDistance (u ++ [a]) (v ++ [b]) =
        if a = b then editDistance u v
        else 1 + min (editDistance u (v ++ [b]))
          (min (editDistance (u ++ [a]) v) (editDistance u v)) := by
  intro n
  induction n with
  | zero =>
    intro u v h a b
    have hu : u = [] := List.length_eq_zero.mp (by omega)
    have hv : v = [] := List.length_eq_zero.mp (by omega)
    subst hu; subst hv
    simpa using editDistance_cons_cons a b [] []
  | succ n ih =>
    intro u v h a b
    match u, v with
    | [], [] =>
      simpa using editDistance_cons_cons a b [] []
    | [], y :: v' =>
      have IH := ih [] v' (by simp at h ⊢; omega) a b
      simp only [List.nil_append] at IH
      simp only [List.nil_append, List.cons_append]
      rw [editDistance_cons_cons a y [] (v' ++ [b]), editDistance_cons_cons a y [] v', IH]
      simp only [editDistance_nil_left, List.length_cons, List.length_append,
        List.length_singleton]
      by_cases hab : a = b
      · subst hab
        by_cases hay : a = y
        · subst hay; simp
        · simp [hay]; omega
      · by_cases hay : a = y
        · subst hay; simp [hab]; omega
        · simp [hab, hay]
    | x :: u', [] =>
      have IH := ih u' [] (by simp at h ⊢; omega) a b
      simp only [List.nil_append] at IH
      simp only [List.nil_append, List.cons_append]
      rw [editDistance_cons_cons x b (u' ++ [a]) [], editDistance_cons_cons x b u' [], IH]
      simp only [editDistance_nil_right, List.length_append, List.length_cons,
        List.length_singleton]
      by_cases hab : a = b
      · subst hab
        by_cases hxb : x = a
        · subst hxb; simp
        · simp [hxb]; omega
      · by_cases hxb : x = b
        · subst hxb; simp [hab]; omega
        · simp [hab, hxb]
    | x :: u', y :: v' =>
      have hA : u'.length + v'.length ≤ n := by simp at h; omega
      have hB : u'.length + (y :: v').length ≤ n := by simp at h ⊢; omega
      have hC : (x :: u').length + v'.length ≤ n := by simp at h ⊢; omega
      have A := ih u' v' hA a b
      have B := ih u' (y :: v') hB a b
      have C := ih (x :: u') v' hC a b
      simp only [List.cons_append] at B C ⊢
      rw [editDistance_cons_cons x y (u' ++ [a]) (v' ++ [b])]
      rw [editDistance_cons_cons x y u' v',
        editDistance_cons_cons x y u' (v' ++ [b]),
        editDistance_cons_cons x y (u' ++ [a]) v']
      rw [A, B, C]
      by_cases hab : a = b
      · subst hab
        by_cases hxy : x = y
        · subst hxy; simp
        · simp [hxy]
      · by_cases hxy : x = y
        · subst hxy; simp [hab]
        · simp only [if_neg hab, if_neg hxy]
          exact min_regroup _ _ _ _ _ _ _ _ _

theorem editDistance_snoc (u v : List Char) (a b : Char) :
    editDistance (u ++ [a]) (v ++ [b]) =
      if a = b then editDistance u v
      else 1 + min (editDistance u (v ++ [b]))
        (min (editDistance (u ++ [a]) v) (editDistance u v)) :=
  editDistance_snoc_aux (u.length + v.length) u v le_rfl a b

/-- Edit distance between two prefixes, read through reversal.  `prefixDistance u v`
is what table entry `dp[u.length][v.length]` of the C++ DP holds. -/
def prefixDistance (u v : List Char) : Nat :=
  editDistance u.reverse v.reverse

theorem prefixDistance_nil_left (v : List Char) : prefixDistance [] v = v.length := by
  simp [prefixDistance, editDistance_nil_left]

theorem prefixDistance_nil_right (u : List Char) : prefixDistance u [] = u.length := by
  simp [prefixDistance, editDistance_nil_right]

theorem prefixDistance_snoc (u v : List Char) (x y : Char) :
    prefixDistance (u ++ [x]) (v ++ [y]) =
      if x = y then prefixDistance u v
      else 1 + min (prefixDistance u (v ++ [y]))
        (min (prefixDistance (u ++ [x]) v) (prefixDistance u v)) := by
  simp only [prefixDistance, List.reverse_append, List.reverse_singleton,
    List.singleton_append]
  exact editDistance_cons_cons x y u.reverse v.reverse

theorem prefixDistance_cons (x y : Char) (u v : List Char) :
    prefixDistance (x :: u) (y :: v) =
      if x = y then prefixDistance u v
      else 1 + min (prefixDistance u (y :: v))
        (min (prefixDistance (x :: u) v) (prefixDistance u v)) := by
  simp only [prefixDistance, List.reverse_cons]
  exact editDistance_snoc u.reverse v.reverse x y

theorem prefixDistance_eq_editDistance :
    ∀ s t : List Char, prefixDistance s t = editDistance s t := by
  have main : ∀ (n : Nat) (s t : List Char), s.length + t.length ≤ n →
      prefixDistance s t = editDistance s t := by
    intro n
    induction n with
    | zero =>
      intro s t h
      have hs : s = [] := List.length_eq_zero.mp (by omega)
      have ht : t = [] := List.length_eq_zero.mp (by omega)
      subst hs; subst ht
      simp [prefixDistance_nil_left, editDistance_nil_left]
    | succ n ih =>
      intro s t h
      match s, t with
      | [], t => simp [prefixDistance_nil_left, editDistance_nil_left]
      | x :: u, [] => simp [prefixDistance_nil_right, editDistance_nil_right]
      | x :: u, y :: v =>
        rw [prefixDistance_cons, editDistance_cons_cons]
        rw [ih u v (by simp at h; omega),
          ih u (y :: v) (by simp at h ⊢; omega),
          ih (x :: u) v (by simp at h ⊢; omega)]
  intro s t
  exact main (s.length + t.length) s t le_rfl

/-! ## The C++ Levenshtein DP (implementation side)

`TranscriptDeduplicator::levenshteinDistance` fills a table `dp` with
`dp[i][0] = i`, `dp[0][j] = j` and
`dp[i][j] = dp[i-1][j-1]` when `s1[i-1] = s2[j-1]`, else
`1 + min(dp[i-1][j], dp[i][j-1], dp[i-1][j-1])`, returning `dp[len1][len2]`.
The embedding computes the same table row by row: `levRowAux` produces the
entries `dp[i][1..len2]` of row `i` from row `i-1` (`up` is `dp[i-1][j]`,
`diag` is `dp[i-1][j-1]`, `left` is `dp[i][j-1]`), and `levenshteinDistance`
folds over `s1`, starting from row `0 = [0, 1, ..., len2]`. -/

def levRowAux (x : Char) : List Char → List Nat → Nat → Nat → List Nat
  | [], _, _, _ => []
  | _ :: _, [], _, _ => []
  | y :: ys, up :: ups, diag, left =>
      let cur := if x = y then diag else 1 + min up (min left diag)
      cur :: levRowAux x ys ups up cur

def levRow (x : Char) (s2 : List Char) (i : Nat) (prev : List Nat) : List Nat :=
  match prev with
  | [] => [i]
  | d :: ds => i :: levRowAux x s2 ds d i

def levenshteinDistance (s1 s2 : List Char) : Nat :=
  (s1.foldl (fun (p : Nat × List Nat) x => (p.1 + 1, levRow x s2 (p.1 + 1) p.2))
    (0, List.range (s2.length + 1))).2.getLastD 0

theorem take_append_len (w l : List Char) (n : Nat) :
    (w ++ l).take (w.length + n) = w ++ l.take n := by
  rw [List.take_append_eq_append_take]
  rw [List.take_of_length_le (by omega)]
  congr 2
  omega

theorem getLastD_append_singleton (l : List Nat) (a d : Nat) :
    (l ++ [a]).getLastD d = a := by
  simp [List.getLastD_eq_getLast?]

theorem levRowAux_spec :
    ∀ (t w u : List Char) (x : Char),
      levRowAux x t
        ((List.range' (w.length + 1) t.length).map
          (fun k => prefixDistance u ((w ++ t).take k)))
        (prefixDistance u w) (prefixDistance (u ++ [x]) w)
      = (List.range' (w.length + 1) t.length).map
          (fun k => prefixDistance (u ++ [x]) ((w ++ t).take k)) := by
  intro t
  induction t with
  | nil => intro w u x; simp [levRowAux]
  | cons y ys ih =>
    intro w u x
    have htake1 : (w ++ y :: ys).take (w.length + 1) = w ++ [y] := by
      simpa using take_append_len w (y :: ys) 1
    have hassoc : (w ++ [y]) ++ ys = w ++ y :: ys := by simp
    have hcur : prefixDistance (u ++ [x]) (w ++ [y]) =
        if x = y then prefixDistance u w
        else 1 + min (prefixDistance u (w ++ [y]))
          (min (prefixDistance (u ++ [x]) w) (prefixDistance u w)) :=
      prefixDistance_snoc u w x y
    have hIH := ih (w ++ [y]) u x
    rw [hassoc] at hIH
    simp only [List.length_append, List.length_singleton] at hIH
    simp only [List.length_cons, List.range'_succ _ _ 1, List.map_cons, htake1]
    rw [levRowAux]
    rw [← hcur, hIH]

theorem levRow_spec (x : Char) (s2 u : List Char) :
    levRow x s2 (u.length + 1)
        ((List.range (s2.length + 1)).map (fun j => prefixDistance u (s2.take j)))
      = (List.range (s2.length + 1)).map
          (fun j => prefixDistance (u ++ [x]) (s2.take j)) := by
  have hrange : List.range (s2.length + 1) = 0 :: List.range' 1 s2.length := by
    rw [List.range_eq_range']
    exact List.range'_succ 0 s2.length 1
  rw [hrange]
  simp only [List.map_cons, List.take_zero]
  have h0 : prefixDistance (u ++ [x]) [] = u.length + 1 := by
    simp [prefixDistance_nil_right]
  rw [levRow]
  have haux := levRowAux_spec s2 [] u x
  simp only [List.nil_append, List.length_nil, Nat.zero_add, prefixDistance_nil_right,
    List.length_append, List.length_singleton] at haux
  rw [h0, prefixDistance_nil_right u, haux]

theorem levFold_spec (s2 : List Char) :
    ∀ (rest u : List Char),
      rest.foldl (fun (p : Nat × List Nat) x => (p.1 + 1, levRow x s2 (p.1 + 1) p.2))
        (u.length, (List.range (s2.length + 1)).map (fun j => prefixDistance u (s2.take j)))
      = ((u ++ rest).length,
          (List.range (s2.length + 1)).map (fun j => prefixDistance (u ++ rest) (s2.take j))) := by
  intro rest
  induction rest with
  | nil => intro u; simp
  | cons x xs ih =>
    intro u
    rw [List.foldl_cons]
    have hstep := levRow_spec x s2 u
    have hlen : (u ++ [x]).length = u.length + 1 := by simp
    have := ih (u ++ [x])
    rw [hlen] at this
    simp only [hstep]
    rw [this]
    simp

/-- The C++ DP table (`TranscriptDeduplicator::levenshteinDistance`) computes
exactly the classic insert/delete/substitute edit distance. -/
theorem levenshteinDistance_eq_editDistance (s1 s2 : List Char) :
    levenshteinDistance s1 s2 = editDistance s1 s2 := by
  unfold levenshteinDistance
  have hinit : (List.range (s2.length + 1)).map (fun j => prefixDistance [] (s2.take j))
      = List.range (s2.length + 1) := by
    have : ∀ j ∈ List.range (s2.length + 1),
        prefixDistance [] (s2.take j) = j := by
      intro j hj
      have hj' : j < s2.length + 1 := List.mem_range.mp hj
      rw [prefixDistance_nil_left, List.length_take]
      omega
    calc (List.range (s2.length + 1)).map (fun j => prefixDistance [] (s2.take j))
        = (List.range (s2.length + 1)).map (fun j => j) := List.map_congr_left this
      _ = List.range (s2.length + 1) := List.map_id' _
  have hfold := levFold_spec s2 s1 []
  simp only [List.nil_append, List.length_nil] at hfold
  rw [← hinit, hfold]
  have hlast : List.range (s2.length + 1) = List.range s2.length ++ [s2.length] :=
    List.range_succ s2.length
  rw [hlast, List.map_append, List.map_singleton, getLastD_append_singleton,
    List.take_length, prefixDistance_eq_editDistance]

/-! ## Characters and words

`std::isspace`/`::tolower`/`std::islower`/`std::isupper` in the default C
locale, restricted to ASCII, as the C++ code applies them to `char`s. -/

def isSpaceChar (c : Char) : Bool :=
  c = ' ' || c = '\t' || c = '\n' || c = '\x0b' || c = '\x0c' || c = '\r'

def toLowerChar (c : Char) : Char :=
  if 65 ≤ c.toNat ∧ c.toNat ≤ 90 then Char.ofNat (c.toNat + 32) else c

def toLowerStr (s : List Char) : List Char :=
  s.map toLowerChar

def isLowerChar (c : Char) : Bool :=
  97 ≤ c.toNat && c.toNat ≤ 122

def isUpperChar (c : Char) : Bool :=
  65 ≤ c.toNat && c.toNat ≤ 90

/-! ## TranscriptDeduplicator: data model

`TranscriptDeduplicator::Config` with its header defaults,
`TranscriptDeduplicator::Segment` and the private `OverlapInfo`. -/

structure Config where
  slidingWindowSize : Nat := 10
  overlapThreshold : ℚ := 0.7
  confidenceWeight : ℚ := 0.3
  maxContextSegments : Nat := 5
  enableFuzzyMatching : Bool := true

def defaultConfig : Config := {}

structure Segment where
  text : List Char
  startTime : ℚ
  endTime : ℚ
  confidence : ℚ
  language : List Char
deriving DecidableEq

structure OverlapInfo where
  prevWordStart : Nat := 0
  prevWordEnd : Nat := 0
  currWordStart : Nat := 0
  currWordEnd : Nat := 0
  similarity : ℚ := 0
  hasOverlap : Bool := false
deriving DecidableEq

/-- `TranscriptDeduplicator::splitWords`: `istringstream >> word` splits on
runs of whitespace, producing the maximal non-whitespace runs in order. -/
def splitWordsAux : List Char → List Char → List (List Char)
  | [], acc => if acc = [] then [] else [acc.reverse]
  | c :: cs, acc =>
      if isSpaceChar c then
        if acc = [] then splitWordsAux cs []
        else acc.reverse :: splitWordsAux cs []
      else splitWordsAux cs (c :: acc)

def splitWords (text : List Char) : List (List Char) :=
  splitWordsAux text []

/-- `TranscriptDeduplicator::joinWords`: words `[start, min end size)` joined
with a single space; empty when `start ≥ size`. -/
def joinWords (words : List (List Char)) (s e : Nat) : List Char :=
  if words.length ≤ s then []
  else List.intercalate [' '] ((words.drop s).take (min e words.length - s))

/-- `joinWords` with the defaulted `end = SIZE_MAX` argument. -/
def joinWordsFrom (words : List (List Char)) (s : Nat) : List Char :=
  joinWords words s words.length

/-- `TranscriptDeduplicator::calculateSimilarity`. -/
def calculateSimilarity (cfg : Config) (text1 text2 : List Char) : ℚ :=
  if text1 = [] ∧ text2 = [] then 1
  else if text1 = [] ∨ text2 = [] then 0
  else if text1 = text2 then 1
  else
    let lower1 := toLowerStr text1
    let lower2 := toLowerStr text2
    if lower1 = lower2 then 0.95
    else if cfg.enableFuzzyMatching = false then 0
    else
      let distance := levenshteinDistance lower1 lower2
      let maxLength := max lower1.length lower2.length
      if maxLength = 0 then 1
      else 1 - (distance : ℚ) / (maxLength : ℚ)

/-- `TranscriptDeduplicator::hasTemporalOverlap`. -/
def hasTemporalOverlap (seg1 seg2 : Segment) : Bool :=
  !(decide (seg1.endTime ≤ seg2.startTime) || decide (seg2.endTime ≤ seg1.startTime))

/-- `TranscriptDeduplicator::resolveConflict`: the conflict score
`confidenceWeight·(currConf − prevConf) + (1 − confidenceWeight)·0.1 > 0`. -/
def resolveConflict (cfg : Config) (previous current : Segment) : Bool :=
  let confidenceScore := current.confidence - previous.confidence
  let timeScore : ℚ := 0.1
  let combinedScore :=
    cfg.confidenceWeight * confidenceScore + (1 - cfg.confidenceWeight) * timeScore
  decide (0 < combinedScore)

structure BestMatch where
  bestSimilarity : ℚ
  bestPrevStart : Nat
  bestCurrStart : Nat
  bestLength : Nat

/-- The `(prevStart, currStart, length)` triples of the three nested loops of
`TranscriptDeduplicator::detectOverlap`, in iteration order. -/
def overlapCandidates (prevLen currLen windowSize : Nat) : List (Nat × Nat × Nat) :=
  let firstPrev := if prevLen ≥ windowSize then prevLen - windowSize else 0
  (List.range' firstPrev (prevLen - firstPrev)).flatMap (fun prevStart =>
    (List.range currLen).flatMap (fun currStart =>
      (List.range' 1 (min (min (prevLen - prevStart) (currLen - currStart)) windowSize)).map
        (fun len => (prevStart, currStart, len))))

/-- One iteration of the innermost loop body of `detectOverlap`: the best
candidate is replaced only on a strict similarity improvement that also
meets the threshold. -/
def detectStep (cfg : Config) (prevWords currWords : List (List Char))
    (best : BestMatch) (cand : Nat × Nat × Nat) : BestMatch :=
  let prevText := joinWords prevWords cand.1 (cand.1 + cand.2.2)
  let currText := joinWords currWords cand.2.1 (cand.2.1 + cand.2.2)
  let similarity := calculateSimilarity cfg prevText currText
  if best.bestSimilarity < similarity ∧ cfg.overlapThreshold ≤ similarity then
    ⟨similarity, cand.1, cand.2.1, cand.2.2⟩
  else best

/-- `TranscriptDeduplicator::detectOverlap`. -/
def detectOverlap (cfg : Config) (previous current : Segment) : OverlapInfo :=
  let prevWords := splitWords previous.text
  let currWords := splitWords current.text
  if prevWords = [] ∨ currWords = [] then {}
  else
    let windowSize := min cfg.slidingWindowSize (min prevWords.length currWords.length)
    let best := (overlapCandidates prevWords.length currWords.length windowSize).foldl
      (detectStep cfg prevWords currWords) ⟨0, 0, 0, 0⟩
    if cfg.overlapThreshold ≤ best.bestSimilarity then
      ⟨best.bestPrevStart, best.bestPrevStart + best.bestLength,
        best.bestCurrStart, best.bestCurrStart + best.bestLength,
        best.bestSimilarity, true⟩
    else {}

/-- `TranscriptDeduplicator::removeOverlap`. -/
def removeOverlap (current : Segment) (overlap : OverlapInfo) : Segment :=
  if overlap.hasOverlap = false then current
  else
    let words := splitWords current.text
    if overlap.currWordStart = 0 then
      let cleanedText := joinWordsFrom words overlap.currWordEnd
      if cleanedText = [] then
        ⟨[], current.startTime, current.endTime, current.confidence, current.language⟩
      else
        let totalDuration := current.endTime - current.startTime
        let removedFraction := (overlap.currWordEnd : ℚ) / (words.length : ℚ)
        ⟨cleanedText, current.startTime + totalDuration * removedFraction,
          current.endTime, current.confidence, current.language⟩
    else
      let beforeOverlap := joinWords words 0 overlap.currWordStart
      let afterOverlap := joinWordsFrom words overlap.currWordEnd
      let cleanedText :=
        if beforeOverlap ≠ [] ∧ afterOverlap ≠ [] then beforeOverlap ++ ' ' :: afterOverlap
        else if afterOverlap ≠ [] then afterOverlap
        else beforeOverlap
      ⟨cleanedText, current.startTime, current.endTime, current.confidence, current.language⟩

/-- The scan of `TranscriptDeduplicator::processSegment` over
`recentSegments_` from newest to oldest: skip segments without temporal
overlap, stop at the first with a detected content overlap. -/
def findFirstOverlap (cfg : Config) (current : Segment) :
    List Segment → Option (Segment × OverlapInfo)
  | [] => none
  | previous :: rest =>
      if hasTemporalOverlap previous current then
        let overlap := detectOverlap cfg previous current
        if overlap.hasOverlap then some (previous, overlap)
        else findFirstOverlap cfg current rest
      else findFirstOverlap cfg current rest

/-- `TranscriptDeduplicator::processSegment`, generalized over the boolean
conflict decision so that the role of `resolveConflict`'s outcome can be
stated: the C++ `if (resolveConflict(...))` has the same call
`removeOverlap(processedSegment, overlap)` in both branches.
State is the `recentSegments_` deque, oldest first; the C++ iterates it
newest-first (`rbegin`), hence the `.reverse`. -/
def processSegmentWith (cfg : Config) (decision : Segment → Segment → Bool)
    (recentSegments : List Segment) (newSegment : Segment) : Segment × List Segment :=
  if newSegment.text = [] then (newSegment, recentSegments)
  else
    let processedSegment :=
      match findFirstOverlap cfg newSegment recentSegments.reverse with
      | some (previous, overlap) =>
          if decision previous newSegment then removeOverlap newSegment overlap
          else removeOverlap newSegment overlap
      | none => newSegment
    if processedSegment.text = [] then (processedSegment, recentSegments)
    else
      let pushed := recentSegments ++ [processedSegment]
      if cfg.maxContextSegments < pushed.length then (processedSegment, pushed.tail)
      else (processedSegment, pushed)

/-- `TranscriptDeduplicator::processSegment`. -/
def processSegment (cfg : Config) (recentSegments : List Segment)
    (newSegment : Segment) : Segment × List Segment :=
  processSegmentWith cfg (fun previous current => resolveConflict cfg previous current)
    recentSegments newSegment

/-! ## Similarity: specification side (for claim C2) -/

/-- The similarity scoring exactly as the spec words it: identical → 1.0;
case-insensitive identical → 0.95; else with fuzzy matching enabled
`1 − editDistance(lower a, lower b) / max(len a, len b)` with the classic
edit distance; with fuzzy matching disabled, 0.0. -/
def claimSimilarity (fuzzy : Bool) (a b : List Char) : ℚ :=
  if a = b then 1
  else if toLowerStr a = toLowerStr b then 0.95
  else if fuzzy then
    1 - (editDistance (toLowerStr a) (toLowerStr b) : ℚ) / ((max a.length b.length : Nat) : ℚ)
  else 0

theorem toLowerStr_length (s : List Char) : (toLowerStr s).length = s.length :=
  List.length_map s toLowerChar

theorem toLowerStr_nil : toLowerStr [] = [] := rfl

theorem toLowerStr_eq_nil_iff (s : List Char) : toLowerStr s = [] ↔ s = [] := by
  simp [toLowerStr]

theorem calculateSimilarity_eq_claimSimilarity (cfg : Config) (a b : List Char) :
    calculateSimilarity cfg a b = claimSimilarity cfg.enableFuzzyMatching a b := by
  simp only [calculateSimilarity, claimSimilarity]
  by_cases hab : a = b
  · subst hab
    by_cases ha : a = []
    · subst ha; simp
    · simp [ha]
  · have hne : ¬(a = [] ∧ b = []) := by
      rintro ⟨h1, h2⟩; exact hab (h1.trans h2.symm)
    rw [if_neg hne, if_neg hab, if_neg hab]
    by_cases ha : a = []
    · subst ha
      have hb : b ≠ [] := fun h => hab h.symm
      rw [if_pos (Or.inl rfl)]
      have hlow : ¬(toLowerStr [] = toLowerStr b) := by
        rw [toLowerStr_nil]
        exact fun h => hb ((toLowerStr_eq_nil_iff b).mp h.symm)
      rw [if_neg hlow]
      cases hfz : cfg.enableFuzzyMatching
      · simp
      · have hblen : b.length ≠ 0 := fun h => hb (List.length_eq_zero.mp h)
        have hcast : ((b.length : Nat) : ℚ) ≠ 0 := by
          exact_mod_cast hblen
        simp only [if_true, toLowerStr_nil, editDistance_nil_left, toLowerStr_length,
          List.length_nil, Nat.zero_max]
        rw [div_self hcast]
        norm_num
    · by_cases hb : b = []
      · subst hb
        rw [if_pos (Or.inr rfl)]
        have hlow : ¬(toLowerStr a = toLowerStr []) := by
          rw [toLowerStr_nil]
          exact fun h => ha ((toLowerStr_eq_nil_iff a).mp h)
        rw [if_neg hlow]
        cases hfz : cfg.enableFuzzyMatching
        · simp
        · have halen : a.length ≠ 0 := fun h => ha (List.length_eq_zero.mp h)
          have hcast : ((a.length : Nat) : ℚ) ≠ 0 := by
            exact_mod_cast halen
          simp only [if_true, toLowerStr_nil, editDistance_nil_right, toLowerStr_length,
            List.length_nil, Nat.max_zero]
          rw [div_self hcast]
          norm_num
      · rw [if_neg (fun h => h.elim ha hb)]
        by_cases hlow : toLowerStr a = toLowerStr b
        · rw [if_pos hlow, if_pos hlow]
        · rw [if_neg hlow, if_neg hlow]
          cases hfz : cfg.enableFuzzyMatching
          · simp
          · have hm : max (toLowerStr a).length (toLowerStr b).length
                = max a.length b.length := by
              rw [toLowerStr_length, toLowerStr_length]
            have hm0 : ¬(max a.length b.length = 0) := by
              have : a.length ≠ 0 := fun h => ha (List.length_eq_zero.mp h)
              omega
            simp only [levenshteinDistance_eq_editDistance, hm, if_neg hm0]
            norm_num

/-! ## WhisperTranscriber: stitch corrector (`fixPunctuation`)

`WhisperTranscriber::Result` has the same fields as
`TranscriptDeduplicator::Segment` (text, startTime, endTime, confidence,
language), so `Segment` doubles as the result type here. The three fix-ups
run in sequence on C++ references, so case 2 sees case 1's text and case 3
sees the text after cases 1 and 2. -/

/-- Modelled from the spec: the bound of the stitch history
(`MAX_RECENT_RESULTS`) is declared in a part of the repository that is not
under `src/`; §4.4 of the spec fixes the default to the last 20 segments. -/
def MAX_RECENT_RESULTS : Nat := 20

/-- Fix case 1 of `WhisperTranscriber::fixPunctuation`: previous chunk ended
with a period and the new chunk starts lowercase — replace the period by a
comma, but only when the previous text has length > 1. -/
def fixCase1 (lastText newText : List Char) : List Char :=
  if lastText ≠ [] ∧ newText ≠ [] ∧ lastText.getLast? = some '.' ∧
      isLowerChar (newText.headD ' ') then
    if 1 < lastText.length then lastText.dropLast ++ [','] else lastText
  else lastText

/-- Fix case 2: previous chunk ended without terminal punctuation and the
new chunk starts uppercase — append a period to the previous text. -/
def fixCase2 (lastText newText : List Char) : List Char :=
  if lastText ≠ [] ∧ newText ≠ [] ∧ lastText.getLast? ≠ some '.' ∧
      lastText.getLast? ≠ some '!' ∧ lastText.getLast? ≠ some '?' ∧
      isUpperChar (newText.headD ' ') then
    lastText ++ ['.']
  else lastText

/-- Fix case 3: if the last 10 characters of the (already fixed-up) previous
text are a prefix of the new text, strip them and any following whitespace
from the new text. -/
def fixCase3 (lastText newText : List Char) : List Char :=
  if 10 < lastText.length ∧ 10 < newText.length then
    if newText.take 10 = lastText.drop (lastText.length - 10) then
      (newText.drop 10).dropWhile
        (fun c => c = ' ' || c = '\t' || c = '\n' || c = '\r')
    else newText
  else newText

/-- The previous-segment text after `fixPunctuation`'s in-place mutations
(case 1 then case 2). -/
def stitchedPrevText (lastText newText : List Char) : List Char :=
  fixCase2 (fixCase1 lastText newText) newText

/-- The new first-segment text after `fixPunctuation` (case 3, which reads
the previous text as mutated by cases 1 and 2). -/
def stitchedNewText (lastText newText : List Char) : List Char :=
  fixCase3 (stitchedPrevText lastText newText) newText

/-- `recentResults_.push_back` followed by the `MAX_RECENT_RESULTS` trim. -/
def pushRecent (recent : List Segment) (r : Segment) : List Segment :=
  let pushed := recent ++ [r]
  if MAX_RECENT_RESULTS < pushed.length then pushed.drop 1 else pushed

/-- `WhisperTranscriber::fixPunctuation`: returns the updated
`recentResults_` history and the corrected batch. -/
def fixPunctuation (recent : List Segment) (newResults : List Segment) :
    List Segment × List Segment :=
  if newResults = [] then (recent, newResults)
  else
    match recent.getLast?, newResults with
    | _, [] => (recent, [])
    | none, rs => (rs.foldl pushRecent recent, rs)
    | some last, r :: rest =>
        let fixedLast := { last with text := stitchedPrevText last.text r.text }
        let fixedFirst := { r with text := stitchedNewText last.text r.text }
        let corrected := fixedFirst :: rest
        (corrected.foldl pushRecent (recent.dropLast ++ [fixedLast]), corrected)

/-- The per-batch loop of `WhisperTranscriber::deduplicateAndCorrect`
(before its final `fixPunctuation` call): each result goes through
`TranscriptDeduplicator::processSegment` and only non-empty outputs are
kept.  Returns the emitted list and the final deduplicator context. -/
def deduplicateLoop (cfg : Config) (context : List Segment) :
    List Segment → List Segment × List Segment
  | [] => ([], context)
  | r :: rest =>
      let step := processSegment cfg context r
      let next := deduplicateLoop cfg step.2 rest
      (if step.1.text = [] then next.1 else step.1 :: next.1, next.2)

/-! ## WhisperTranscriber: real-time input and the consumer loop -/

/-- `WhisperTranscriber::addAudioData`: the audio queue is untouched when the
transcriber is not initialized or the chunk is empty; otherwise the chunk and
its timestamp are appended (enqueued for the consumer thread). -/
def addAudioData (initialized : Bool) (audioQueue : List (List ℚ × ℚ))
    (audioData : List ℚ) (timestamp : ℚ) : List (List ℚ × ℚ) :=
  if initialized = false ∨ audioData = [] then audioQueue
  else audioQueue ++ [(audioData, timestamp)]

def BUFFER_SIZE_SECONDS : Nat := 10

def MIN_PROCESS_SIZE_SECONDS : Nat := 2

/-- `BUFFER_SIZE_SECONDS * 16000`, the hard maximum of the accumulation
buffer, in samples. -/
def maxBufferSamples : Nat := BUFFER_SIZE_SECONDS * 16000

/-- `MIN_PROCESS_SIZE_SECONDS * 16000`. -/
def minProcessSamples : Nat := MIN_PROCESS_SIZE_SECONDS * 16000

structure PipeState where
  audioBuffer : List ℚ
  overlapTail : List ℚ
deriving DecidableEq

/-- One iteration of the inner consumer loop of
`WhisperTranscriber::processingThreadFunction` for one dequeued chunk,
composed with `WhisperTranscriber::processBuffer` when the flush decision
fires.  `isSpeech` abstracts `detectSpeech` (the energy test on the chunk);
`overlapSamples` is `OVERLAP_SECONDS * 16000` (the constant is declared
outside `src/`, so it stays a parameter).  The model corresponds to a
running session, i.e. `resultCallback_` is set; the second component is the
audio handed to the recognition engine by the flush, if one happened. -/
def consumeChunk (isSpeech : List ℚ → Bool) (overlapSamples : Nat)
    (st : PipeState) (chunk : List ℚ) : PipeState × Option (List ℚ) :=
  let buffer := st.audioBuffer ++ chunk
  let shouldProcess :=
    if maxBufferSamples ≤ buffer.length then true
    else if minProcessSamples ≤ buffer.length then !isSpeech chunk
    else false
  if shouldProcess then
    if buffer = [] then (⟨buffer, st.overlapTail⟩, none)
    else
      let audioToProcess := st.overlapTail ++ buffer
      let newTail :=
        if overlapSamples ≤ buffer.length then buffer.drop (buffer.length - overlapSamples)
        else buffer
      (⟨[], newTail⟩, some audioToProcess)
  else (⟨buffer, st.overlapTail⟩, none)

/-- The accumulation-buffer component of a run of the consumer loop. -/
def consumeRun (isSpeech : List ℚ → Bool) (overlapSamples : Nat)
    (st : PipeState) (chunks : List (List ℚ)) : PipeState :=
  chunks.foldl (fun s c => (consumeChunk isSpeech overlapSamples s c).1) st

/-! ## AudioBuffer (the ring buffer) -/

structure ABuf where
  buffer : List ℚ
  size : Nat
  writeIndex : Nat
  readIndex : Nat
  availableSamples : Nat
deriving DecidableEq

/-- The `AudioBuffer(sizeInSamples)` constructor: zeroed storage, cursors
and count at zero. -/
def ABuf.init (sizeInSamples : Nat) : ABuf :=
  ⟨List.replicate sizeInSamples 0, sizeInSamples, 0, 0, 0⟩

/-- The body of `AudioBuffer::write`'s copy loop: store one sample at the
write cursor and advance it modulo the capacity (`nextIndex`). -/
def writeLoop : ABuf → List ℚ → ABuf
  | st, [] => st
  | st, x :: xs =>
      writeLoop ⟨st.buffer.set st.writeIndex x, st.size,
        (st.writeIndex + 1) % st.size, st.readIndex, st.availableSamples⟩ xs

/-- `AudioBuffer::write`: writes `min (numSamples, freeSamples)` samples and
returns that count. -/
def ABuf.write (st : ABuf) (data : List ℚ) : Nat × ABuf :=
  if data = [] then (0, st)
  else
    let freeSamples := st.size - st.availableSamples
    let samplesToWrite := min data.length freeSamples
    let st' := writeLoop st (data.take samplesToWrite)
    (samplesToWrite, ⟨st'.buffer, st'.size, st'.writeIndex, st'.readIndex,
      st.availableSamples + samplesToWrite⟩)

/-- The body of `AudioBuffer::read`'s copy loop. -/
def readLoop : ABuf → Nat → List ℚ × ABuf
  | st, 0 => ([], st)
  | st, k + 1 =>
      let x := st.buffer.getD st.readIndex 0
      let rest := readLoop ⟨st.buffer, st.size, st.writeIndex,
        (st.readIndex + 1) % st.size, st.availableSamples⟩ k
      (x :: rest.1, rest.2)

/-- `AudioBuffer::read`. -/
def ABuf.read (st : ABuf) (numSamples : Nat) : List ℚ × ABuf :=
  if numSamples = 0 then ([], st)
  else
    let samplesToRead := min numSamples st.availableSamples
    let r := readLoop st samplesToRead
    (r.1, ⟨r.2.buffer, r.2.size, r.2.writeIndex, r.2.readIndex,
      st.availableSamples - samplesToRead⟩)

/-- `AudioBuffer::clear`. -/
def ABuf.clear (st : ABuf) : ABuf :=
  ⟨st.buffer, st.size, 0, 0, 0⟩

/-- `AudioBuffer::getAvailableSamples`. -/
def ABuf.getAvailableSamples (st : ABuf) : Nat :=
  st.availableSamples

/-- `AudioBuffer::getFreeSamples`. -/
def ABuf.getFreeSamples (st : ABuf) : Nat :=
  st.size - st.availableSamples

inductive ABufOp where
  | write (data : List ℚ)
  | read (numSamples : Nat)
  | clear

def applyOp (st : ABuf) : ABufOp → ABuf
  | ABufOp.write data => (st.write data).2
  | ABufOp.read n => (st.read n).2
  | ABufOp.clear => st.clear

def applyOps (st : ABuf) (ops : List ABufOp) : ABuf :=
  ops.foldl applyOp st

/-- The sequence of unread samples, in read order. -/
def unreadData (st : ABuf) : List ℚ :=
  (List.range st.availableSamples).map
    (fun i => st.buffer.getD ((st.readIndex + i) % st.size) 0)

/-- The coherence invariant of the ring buffer: storage length equals the
capacity, the count never exceeds the capacity, and the write cursor sits
`availableSamples` past the read cursor (modulo the capacity). -/
def ABufInv (st : ABuf) : Prop :=
  st.buffer.length = st.size ∧ st.availableSamples ≤ st.size ∧
    st.writeIndex = (st.readIndex + st.availableSamples) % st.size ∧
    st.readIndex % st.size = st.readIndex

instance (st : ABuf) : Decidable (ABufInv st) := by
  unfold ABufInv; infer_instance

/-! ## Claim theorems -/

/-- Claim C1: for every configuration, context and new segment, the result of
`processSegment` does not depend on the boolean outcome of the conflict
resolution: replacing `resolveConflict` by any decision function whatsoever
(in particular constant `true` or constant `false`) yields the same returned
segment and the same updated window, because both branches of the C++
`if (resolveConflict(...))` remove the overlapping span from the current
segment. -/
theorem claim1_conflict_decision_irrelevant (cfg : Config)
    (dec1 dec2 : Segment → Segment → Bool) (recentSegments : List Segment)
    (newSegment : Segment) :
    processSegmentWith cfg dec1 recentSegments newSegment =
      processSegmentWith cfg dec2 recentSegments newSegment ∧
    processSegment cfg recentSegments newSegment =
      processSegmentWith cfg dec1 recentSegments newSegment := by
  have key : ∀ dec dec' : Segment → Segment → Bool,
      processSegmentWith cfg dec recentSegments newSegment =
        processSegmentWith cfg dec' recentSegments newSegment := by
    intro dec dec'
    by_cases ht : newSegment.text = []
    · simp [processSegmentWith, ht]
    · simp only [processSegmentWith, if_neg ht]
      cases h : findFirstOverlap cfg newSegment recentSegments.reverse with
      | none => rfl
      | some po =>
          obtain ⟨previous, overlap⟩ := po
          simp [ite_self]
  exact ⟨key dec1 dec2, key (fun p c => resolveConflict cfg p c) dec1⟩

/-- Claim C2: `calculateSimilarity` computes exactly the spec's similarity:
1.0 for identical strings, else 0.95 for case-insensitively identical
strings, else `1 − editDistance(lower a, lower b) / max(len a, len b)` with
the classic single-character insert/delete/substitute edit distance when
fuzzy matching is enabled, else 0.0; and "Hello World" versus "hello world"
scores exactly 0.95. -/
theorem claim2_similarity_spec (cfg : Config) (a b : List Char) :
    calculateSimilarity cfg a b = claimSimilarity cfg.enableFuzzyMatching a b ∧
    calculateSimilarity cfg ("Hello World".data) ("hello world".data) = 0.95 := by
  refine ⟨calculateSimilarity_eq_claimSimilarity cfg a b, ?_⟩
  rw [calculateSimilarity_eq_claimSimilarity]
  unfold claimSimilarity
  rw [if_neg (by decide), if_pos (by decide)]

/-- Claim C9 (counterexample): with previous text `"."` (a bare period) and
new text `"the next part"`, the previous text ends with a period and the new
text starts with a lowercase letter, yet the stitch correction leaves the
period in place (the C++ guard `lastText.length() > 1` skips the
replacement), so the trailing period is not replaced by a comma. -/
theorem claim9_counterexample :
    ".".data.getLast? = some '.' ∧
    isLowerChar ("the next part".data.headD ' ') = true ∧
    stitchedPrevText (".".data) ("the next part".data) = ".".data ∧
    ".".data ≠ [','] := by
  refine ⟨by decide, by decide, by decide, by decide⟩

/-- Claim C9 (amended): for every previous text of length at least 2 that
ends with a period, and every non-empty new text beginning with a lowercase
ASCII letter, the stitch correction replaces the previous text's trailing
period with a comma (case 1), and case 2 leaves that comma in place; the
new text is untouched by this rule (case 1 rewrites only the previous
segment's text). -/
theorem claim9_period_to_comma (lastText newText : List Char)
    (h1 : lastText.getLast? = some '.') (h2 : 2 ≤ lastText.length)
    (h3 : isLowerChar (newText.headD ' ') = true) (h4 : newText ≠ []) :
    fixCase1 lastText newText = lastText.dropLast ++ [','] ∧
    stitchedPrevText lastText newText = lastText.dropLast ++ [','] := by
  have hne : lastText ≠ [] := by
    intro h; rw [h] at h1; simp at h1
  have hc1 : fixCase1 lastText newText = lastText.dropLast ++ [','] := by
    unfold fixCase1
    rw [if_pos ⟨hne, h4, h1, h3⟩, if_pos (by omega)]
  refine ⟨hc1, ?_⟩
  unfold stitchedPrevText
  rw [hc1]
  unfold fixCase2
  rw [if_neg ?_]
  rintro ⟨-, -, -, -, -, hup⟩
  simp only [isLowerChar, isUpperChar, Bool.and_eq_true, decide_eq_true_eq] at h3 hup
  omega

/-- Claim C9 (witness for the amended claim). -/
theorem claim9_witness :
    "about this topic.".data.getLast? = some '.' ∧
    2 ≤ "about this topic.".data.length ∧
    isLowerChar ("the next part".data.headD ' ') = true ∧
    stitchedPrevText ("about this topic.".data) ("the next part".data) =
      "about this topic.".data.dropLast ++ [','] := by
  refine ⟨by decide, by decide, by decide, ?_⟩
  exact (claim9_period_to_comma ("about this topic.".data) ("the next part".data)
    (by decide) (by decide) (by decide) (by decide)).2

/-- Claim C10: empty input is a no-op: `addAudioData` with an empty chunk
(or on an uninitialized transcriber) enqueues nothing, and `processSegment`
with an empty-text segment returns the segment unchanged and leaves the
window untouched.  All three functions are total, so no error is raised. -/
theorem claim10_empty_input_noop :
    (∀ (initialized : Bool) (audioQueue : List (List ℚ × ℚ)) (ts : ℚ),
        addAudioData initialized audioQueue [] ts = audioQueue) ∧
    (∀ (audioQueue : List (List ℚ × ℚ)) (chunk : List ℚ) (ts : ℚ),
        addAudioData false audioQueue chunk ts = audioQueue) ∧
    (∀ (cfg : Config) (context : List Segment) (seg : Segment), seg.text = [] →
        processSegment cfg context seg = (seg, context)) := by
  refine ⟨?_, ?_, ?_⟩
  · intro i q ts; simp [addAudioData]
  · intro q c ts; simp [addAudioData]
  · intro cfg ctx seg h
    simp [processSegment, processSegmentWith, h]

/-- Claim C10 (witness). -/
theorem claim10_witness :
    addAudioData true [] [] 0 = [] ∧
    processSegment defaultConfig [] ⟨[], 0, 1, 0.9, []⟩ = (⟨[], 0, 1, 0.9, []⟩, []) :=
  ⟨claim10_empty_input_noop.1 true [] 0,
   claim10_empty_input_noop.2.2 defaultConfig [] ⟨[], 0, 1, 0.9, []⟩ rfl⟩

/-- Claim C8: in the consumer loop, whenever the accumulation buffer (after
appending the dequeued chunk) reaches the hard maximum window
`BUFFER_SIZE_SECONDS · 16000`, that same iteration triggers a flush
(`processBuffer` is invoked and hands audio to the engine) and accumulation
resumes from an empty buffer; consequently, for any speech predicate and any
input chunk sequence, the accumulation buffer held between iterations is
always strictly below the hard maximum. -/
theorem claim8_forced_flush (isSpeech : List ℚ → Bool) (overlapSamples : Nat)
    (st : PipeState) (chunk : List ℚ) :
    (consumeChunk isSpeech overlapSamples st chunk).1.audioBuffer.length
        < maxBufferSamples ∧
    (maxBufferSamples ≤ (st.audioBuffer ++ chunk).length →
      ((consumeChunk isSpeech overlapSamples st chunk).2.isSome = true ∧
        (consumeChunk isSpeech overlapSamples st chunk).1.audioBuffer = [])) ∧
    (∀ chunks : List (List ℚ), chunks ≠ [] →
      (consumeRun isSpeech overlapSamples st chunks).audioBuffer.length
        < maxBufferSamples) := by
  have hmaxpos : 0 < maxBufferSamples := by decide
  have step : ∀ (s : PipeState) (c : List ℚ),
      (consumeChunk isSpeech overlapSamples s c).1.audioBuffer.length
        < maxBufferSamples := by
    intro s c
    unfold consumeChunk
    by_cases hm : maxBufferSamples ≤ (s.audioBuffer ++ c).length
    · have hne : ¬(s.audioBuffer ++ c) = [] := by
        intro hnil
        rw [hnil] at hm
        simp only [List.length_nil] at hm
        omega
      simp only [if_pos hm, if_true, if_neg hne]
      exact hmaxpos
    · by_cases hmin : minProcessSamples ≤ (s.audioBuffer ++ c).length
      · cases hsp : isSpeech c
        · by_cases hne : (s.audioBuffer ++ c) = []
          · simp only [if_neg hm, if_pos hmin, hsp, Bool.not_false, if_true, if_pos hne]
            rw [hne]
            exact hmaxpos
          · simp only [if_neg hm, if_pos hmin, hsp, Bool.not_false, if_true, if_neg hne]
            exact hmaxpos
        · simp only [if_neg hm, if_pos hmin, hsp, Bool.not_true]
          simp only [Bool.false_eq_true, if_false]
          omega
      · simp only [if_neg hm, if_neg hmin]
        simp only [Bool.false_eq_true, if_false]
        omega
  refine ⟨step st chunk, ?_, ?_⟩
  · intro hm
    have hne : ¬(st.audioBuffer ++ chunk) = [] := by
      intro hnil
      rw [hnil] at hm
      simp only [List.length_nil] at hm
      omega
    unfold consumeChunk
    simp only [if_pos hm, if_true, if_neg hne]
    simp
  · intro chunks
    induction chunks generalizing st with
    | nil => intro hne; exact absurd rfl hne
    | cons c cs ih =>
        intro _
        by_cases hcs : cs = []
        · subst hcs
          simpa [consumeRun] using step st c
        · have hrec := ih ((consumeChunk isSpeech overlapSamples st c).1) hcs
          simpa [consumeRun] using hrec

/-- Claim C8 (witness): one chunk of exactly the hard maximum size is flushed
in the same iteration, leaving an empty accumulation buffer, and a short
all-speech run stays below the hard maximum. -/
theorem claim8_witness :
    ((consumeChunk (fun _ => true) 8000 ⟨[], []⟩
        (List.replicate maxBufferSamples 0)).2.isSome = true ∧
      (consumeChunk (fun _ => true) 8000 ⟨[], []⟩
        (List.replicate maxBufferSamples 0)).1.audioBuffer = []) ∧
    (consumeRun (fun _ => true) 8000 ⟨[], []⟩ [[0], [1]]).audioBuffer.length
      < maxBufferSamples := by
  have h := claim8_forced_flush (fun _ => true) 8000 ⟨[], []⟩
    (List.replicate maxBufferSamples 0)
  have h2 := claim8_forced_flush (fun _ => true) 8000 ⟨[], []⟩ ([0] : List ℚ)
  exact ⟨h.2.1 (by simp), h2.2.2 [[0], [1]] (by simp)⟩

/-- Claim C7: after `processSegment`, a segment trimmed to empty text is
suppressed: the recent-segment window is unchanged (not appended) and the
`deduplicateAndCorrect` loop never emits it; the window never grows beyond
`maxContextSegments` (given it was within bounds before), and every update
either leaves the window alone, appends the new segment at the (newest) end,
or appends it and evicts the front (oldest) entry. -/
theorem claim7_window_invariant (cfg : Config) (context : List Segment)
    (seg : Segment) (results : List Segment)
    (h : context.length ≤ cfg.maxContextSegments) :
    ((processSegment cfg context seg).1.text = [] →
        (processSegment cfg context seg).2 = context) ∧
    (processSegment cfg context seg).2.length ≤ cfg.maxContextSegments ∧
    ((processSegment cfg context seg).2 = context ∨
      (processSegment cfg context seg).2 =
        context ++ [(processSegment cfg context seg).1] ∨
      (processSegment cfg context seg).2 =
        (context ++ [(processSegment cfg context seg).1]).tail) ∧
    (∀ r ∈ (deduplicateLoop cfg context results).1, r.text ≠ []) := by
  have hmain : ∀ ctx : List Segment, ctx.length ≤ cfg.maxContextSegments →
      ((processSegment cfg ctx seg).1.text = [] →
        (processSegment cfg ctx seg).2 = ctx) ∧
      (processSegment cfg ctx seg).2.length ≤ cfg.maxContextSegments ∧
      ((processSegment cfg ctx seg).2 = ctx ∨
        (processSegment cfg ctx seg).2 = ctx ++ [(processSegment cfg ctx seg).1] ∨
        (processSegment cfg ctx seg).2 =
          (ctx ++ [(processSegment cfg ctx seg).1]).tail) := by
    intro ctx hctx
    unfold processSegment processSegmentWith
    by_cases ht : seg.text = []
    · rw [if_pos ht]
      exact ⟨fun _ => rfl, hctx, Or.inl rfl⟩
    · rw [if_neg ht]
      cases hf : findFirstOverlap cfg seg ctx.reverse with
      | none =>
          dsimp only
          rw [if_neg ht]
          by_cases hover : cfg.maxContextSegments < (ctx ++ [seg]).length
          · rw [if_pos hover]
            refine ⟨fun hc => absurd hc ht, ?_, Or.inr (Or.inr rfl)⟩
            have h1 : ((ctx ++ [seg]).tail).length = ctx.length := by
              rw [List.length_tail]
              simp
            dsimp only
            omega
          · rw [if_neg hover]
            refine ⟨fun hc => absurd hc ht, ?_, Or.inr (Or.inl rfl)⟩
            have h1 : (ctx ++ [seg]).length = ctx.length + 1 := by simp
            dsimp only
            omega
      | some po =>
          obtain ⟨prev, ov⟩ := po
          dsimp only
          rw [ite_self]
          by_cases hpt : (removeOverlap seg ov).text = []
          · rw [if_pos hpt]
            exact ⟨fun _ => rfl, hctx, Or.inl rfl⟩
          · rw [if_neg hpt]
            by_cases hover :
                cfg.maxContextSegments < (ctx ++ [removeOverlap seg ov]).length
            · rw [if_pos hover]
              refine ⟨fun hc => absurd hc hpt, ?_, Or.inr (Or.inr rfl)⟩
              have h1 : ((ctx ++ [removeOverlap seg ov]).tail).length = ctx.length := by
                rw [List.length_tail]
                simp
              dsimp only
              omega
            · rw [if_neg hover]
              refine ⟨fun hc => absurd hc hpt, ?_, Or.inr (Or.inl rfl)⟩
              have h1 : (ctx ++ [removeOverlap seg ov]).length = ctx.length + 1 := by simp
              dsimp only
              omega
  have hm := hmain context h
  refine ⟨hm.1, hm.2.1, hm.2.2, ?_⟩
  clear hm hmain h
  induction results generalizing context with
  | nil => intro r hr; simp [deduplicateLoop] at hr
  | cons x xs ih =>
      intro r hr
      simp only [deduplicateLoop] at hr
      by_cases hx : (processSegment cfg context x).1.text = []
      · rw [if_pos hx] at hr
        exact ih (processSegment cfg context x).2 r hr
      · rw [if_neg hx] at hr
        rcases List.mem_cons.mp hr with hr1 | hr2
        · rw [hr1]; exact hx
        · exact ih (processSegment cfg context x).2 r hr2

/-- Claim C7 (witness). -/
theorem claim7_witness :
    ((processSegment defaultConfig [] ⟨"hi".data, 0, 1, 0.9, []⟩).1.text = [] →
        (processSegment defaultConfig [] ⟨"hi".data, 0, 1, 0.9, []⟩).2 = []) ∧
    (processSegment defaultConfig [] ⟨"hi".data, 0, 1, 0.9, []⟩).2.length ≤
      defaultConfig.maxContextSegments ∧
    ((processSegment defaultConfig [] ⟨"hi".data, 0, 1, 0.9, []⟩).2 = [] ∨
      (processSegment defaultConfig [] ⟨"hi".data, 0, 1, 0.9, []⟩).2 =
        [] ++ [(processSegment defaultConfig [] ⟨"hi".data, 0, 1, 0.9, []⟩).1] ∨
      (processSegment defaultConfig [] ⟨"hi".data, 0, 1, 0.9, []⟩).2 =
        ([] ++ [(processSegment defaultConfig [] ⟨"hi".data, 0, 1, 0.9, []⟩).1]).tail) ∧
    (∀ r ∈ (deduplicateLoop defaultConfig []
        [⟨"hi".data, 0, 1, 0.9, []⟩]).1, r.text ≠ []) :=
  claim7_window_invariant defaultConfig [] ⟨"hi".data, 0, 1, 0.9, []⟩
    [⟨"hi".data, 0, 1, 0.9, []⟩] (by decide)

/-! ## Concrete scenarios for claims C3, C4 and C5 -/

def exampleConfig : Config := ⟨4, 0.7, 0.3, 5, true⟩

def examplePrev : Segment := ⟨"the quick brown fox".data, 0, 2, 0.9, []⟩

def exampleCur : Segment := ⟨"brown fox jumps".data, 1.5, 3, 0.8, []⟩

def hwSeg : Segment := ⟨"hello world".data, 0, 1, 0.9, []⟩

def hiPrev : Segment := ⟨"hi".data, 0, 2, 0.9, []⟩

def hiCur : Segment := ⟨"hi".data, 1, 3, 0.8, []⟩

set_option maxRecDepth 200000 in
/-- Claim C4 (counterexample): with window 4, threshold 0.7 and fuzzy
matching on, processing `("the quick brown fox", 0..2, 0.9)` and then
`("brown fox jumps", 1.5..3, 0.8)` does not trim the current text to
`"jumps"`: because a longer equal span never *strictly* improves the
similarity score, only the single word `"brown"` is detected as the best
overlap, and the trimmed text is `"fox jumps"`. -/
theorem claim4_counterexample :
    (processSegment exampleConfig [] examplePrev).2 = [examplePrev] ∧
    (processSegment exampleConfig [examplePrev] exampleCur).1.text ≠ "jumps".data ∧
    (detectOverlap exampleConfig examplePrev exampleCur).currWordEnd ≠ 2 := by
  with_unfolding_all decide

set_option maxRecDepth 200000 in
/-- Claim C4 (amended): in the scenario above the detected overlap is the
single word `"brown"` (prev word index 2, current word index 0, length 1,
similarity 1.0 — longer equal spans do not strictly improve the score and
are not taken), and the returned current segment has text `"fox jumps"`
with `startTime` exactly 2.0 and `endTime` 3. -/
theorem claim4_single_word_overlap :
    (processSegment exampleConfig [] examplePrev) = (examplePrev, [examplePrev]) ∧
    detectOverlap exampleConfig examplePrev exampleCur =
      ⟨2, 3, 0, 1, 1, true⟩ ∧
    (processSegment exampleConfig [examplePrev] exampleCur).1 =
      ⟨"fox jumps".data, 2, 3, 0.8, []⟩ := by
  with_unfolding_all decide

set_option maxRecDepth 200000 in
/-- Claim C5 (counterexample): feeding the two-word segment
`("hello world", 0..1, 0.9)` twice does not suppress the second copy: the
best detected overlap is only the first word (strict-improvement tie
breaking), so the second call returns `"world"` (with startTime 0.5), which
is non-empty and is appended to the window. -/
theorem claim5_counterexample :
    (processSegment defaultConfig
        ((processSegment defaultConfig [] hwSeg).2) hwSeg).1.text = "world".data ∧
    (processSegment defaultConfig
        ((processSegment defaultConfig [] hwSeg).2) hwSeg).1.text ≠ [] ∧
    (processSegment defaultConfig
        ((processSegment defaultConfig [] hwSeg).2) hwSeg).2 =
      [hwSeg, ⟨"world".data, 0.5, 1, 0.9, []⟩] := by
  with_unfolding_all decide

/-! ## Lemmas about words and joining -/

theorem splitWordsAux_no_space (cs : List Char) :
    ∀ acc : List Char, (∀ c ∈ cs, isSpaceChar c = false) → acc ≠ [] →
      splitWordsAux cs acc = [acc.reverse ++ cs] := by
  induction cs with
  | nil =>
      intro acc _ hacc
      simp [splitWordsAux, hacc]
  | cons c cs ih =>
      intro acc h hacc
      have hc : isSpaceChar c = false := h c (List.mem_cons_self c cs)
      rw [splitWordsAux]
      rw [if_neg (by simp [hc])]
      rw [ih (c :: acc) (fun d hd => h d (List.mem_cons_of_mem c hd)) (by simp)]
      simp

theorem splitWords_single (w : List Char) (hw : w ≠ [])
    (hsp : ∀ c ∈ w, isSpaceChar c = false) : splitWords w = [w] := by
  cases w with
  | nil => exact absurd rfl hw
  | cons c cs =>
      have hc : isSpaceChar c = false := hsp c (List.mem_cons_self c cs)
      show splitWordsAux (c :: cs) [] = [c :: cs]
      rw [splitWordsAux]
      rw [if_neg (by simp [hc])]
      rw [splitWordsAux_no_space cs [c]
        (fun d hd => hsp d (List.mem_cons_of_mem c hd)) (by simp)]
      simp

theorem splitWordsAux_mem_ne_nil (cs : List Char) :
    ∀ (acc w : List Char), w ∈ splitWordsAux cs acc → w ≠ [] := by
  induction cs with
  | nil =>
      intro acc w hw
      rw [splitWordsAux] at hw
      by_cases hacc : acc = []
      · rw [if_pos hacc] at hw
        simp at hw
      · rw [if_neg hacc] at hw
        simp only [List.mem_singleton] at hw
        subst hw
        simpa using hacc
  | cons c cs ih =>
      intro acc w hw
      rw [splitWordsAux] at hw
      by_cases hc : isSpaceChar c = true
      · rw [if_pos hc] at hw
        by_cases hacc : acc = []
        · rw [if_pos hacc] at hw
          exact ih [] w hw
        · rw [if_neg hacc] at hw
          rcases List.mem_cons.mp hw with hw1 | hw2
          · subst hw1
            simpa using hacc
          · exact ih [] w hw2
      · rw [if_neg hc] at hw
        exact ih (c :: acc) w hw

theorem splitWords_mem_ne_nil (t w : List Char) (hw : w ∈ splitWords t) : w ≠ [] :=
  splitWordsAux_mem_ne_nil t [] w hw

theorem intercalate_nil (sep : List Char) : List.intercalate sep [] = [] := by
  simp [List.intercalate]

theorem intercalate_singleton (sep x : List Char) :
    List.intercalate sep [x] = x := by
  simp [List.intercalate]

theorem intercalate_cons_cons (sep x y : List Char) (l : List (List Char)) :
    List.intercalate sep (x :: y :: l) = x ++ sep ++ List.intercalate sep (y :: l) := by
  simp [List.intercalate, List.intersperse]

theorem intercalate_append_of_ne_nil (sep : List Char) :
    ∀ (A B : List (List Char)), A ≠ [] → B ≠ [] →
      List.intercalate sep (A ++ B) =
        List.intercalate sep A ++ sep ++ List.intercalate sep B := by
  intro A
  induction A with
  | nil => intro B hA _; exact absurd rfl hA
  | cons a A ih =>
      intro B _ hB
      cases A with
      | nil =>
          cases B with
          | nil => exact absurd rfl hB
          | cons b B =>
              rw [List.singleton_append, intercalate_cons_cons, intercalate_singleton]
      | cons a' A' =>
          rw [List.cons_append, List.cons_append, intercalate_cons_cons]
          rw [intercalate_cons_cons]
          rw [← List.cons_append, ih B (by simp) hB]
          simp [List.append_assoc]

theorem intercalate_ne_nil_of_mem_ne_nil (sep : List Char) (B : List (List Char))
    (hmem : ∀ w ∈ B, w ≠ []) (hB : B ≠ []) : List.intercalate sep B ≠ [] := by
  cases B with
  | nil => exact absurd rfl hB
  | cons b B =>
      cases B with
      | nil =>
          rw [intercalate_singleton]
          exact hmem b (List.mem_cons_self b [])
      | cons b' B' =>
          rw [intercalate_cons_cons]
          have hb : b ≠ [] := hmem b (List.mem_cons_self b (b' :: B'))
          simp [hb]

theorem joinWords_zero (ws : List (List Char)) (c : Nat) :
    joinWords ws 0 c = List.intercalate [' '] (ws.take c) := by
  unfold joinWords
  by_cases h : ws.length ≤ 0
  · rw [if_pos h]
    have : ws = [] := List.length_eq_zero.mp (by omega)
    subst this
    simp [intercalate_nil]
  · rw [if_neg h]
    rw [List.drop_zero, Nat.sub_zero]
    by_cases hc : c ≤ ws.length
    · rw [min_eq_left hc]
    · rw [min_eq_right (by omega)]
      rw [List.take_length, List.take_of_length_le (by omega)]

theorem joinWordsFrom_eq (ws : List (List Char)) (e : Nat) :
    joinWordsFrom ws e = List.intercalate [' '] (ws.drop e) := by
  unfold joinWordsFrom joinWords
  by_cases h : ws.length ≤ e
  · rw [if_pos h]
    rw [List.drop_eq_nil_of_le h]
    simp [intercalate_nil]
  · rw [if_neg h]
    rw [min_self]
    have : (ws.drop e).length = ws.length - e := List.length_drop e ws
    rw [← this, List.take_length]

/-- Claim C5 (amended): for every *single-word* segment (non-empty text with
no whitespace) whose startTime is strictly below its endTime, processing it
twice into an empty context under the default configuration yields, on the
second call, a detected overlap of the whole (one-word) text with
similarity 1.0, and the second copy is suppressed entirely: empty text is
returned and the window still holds only the first copy.  (For multi-word
segments only the first word is removed — see the counterexample.) -/
theorem claim5_single_word (seg : Segment) (hw : seg.text ≠ [])
    (hsp : ∀ c ∈ seg.text, isSpaceChar c = false)
    (ht : seg.startTime < seg.endTime) :
    processSegment defaultConfig [] seg = (seg, [seg]) ∧
    detectOverlap defaultConfig seg seg = ⟨0, 1, 0, 1, 1, true⟩ ∧
    (processSegment defaultConfig [seg] seg).1.text = [] ∧
    (processSegment defaultConfig [seg] seg).2 = [seg] := by
  have hsplit : splitWords seg.text = [seg.text] := splitWords_single _ hw hsp
  have hov : detectOverlap defaultConfig seg seg = ⟨0, 1, 0, 1, 1, true⟩ := by
    unfold detectOverlap
    rw [hsplit]
    rw [if_neg (by simp)]
    simp only [List.length_singleton]
    have hcand : overlapCandidates 1 1 (min defaultConfig.slidingWindowSize (min 1 1))
        = [(0, 0, 1)] := by decide
    rw [hcand]
    simp only [List.foldl_cons, List.foldl_nil]
    unfold detectStep
    dsimp only
    have hjoin : joinWords [seg.text] 0 (0 + 1) = seg.text := by
      rw [joinWords_zero]
      simp [intercalate_singleton]
    rw [hjoin]
    have hsim : calculateSimilarity defaultConfig seg.text seg.text = 1 := by
      rw [calculateSimilarity_eq_claimSimilarity]
      unfold claimSimilarity
      rw [if_pos rfl]
    rw [hsim]
    rw [if_pos (show (0 : ℚ) < 1 ∧ defaultConfig.overlapThreshold ≤ 1 from
      ⟨by norm_num, by norm_num [defaultConfig]⟩)]
    dsimp only
    rw [if_pos (show defaultConfig.overlapThreshold ≤ (1 : ℚ) from
      by norm_num [defaultConfig])]
  have hrem : removeOverlap seg ⟨0, 1, 0, 1, 1, true⟩ =
      ⟨[], seg.startTime, seg.endTime, seg.confidence, seg.language⟩ := by
    unfold removeOverlap
    dsimp only
    rw [if_neg (by simp)]
    rw [if_pos rfl]
    rw [hsplit, joinWordsFrom_eq]
    simp [intercalate_nil]
  have htmp : hasTemporalOverlap seg seg = true := by
    unfold hasTemporalOverlap
    have h1 : decide (seg.endTime ≤ seg.startTime) = false :=
      decide_eq_false (not_le.mpr ht)
    rw [h1]
    rfl
  have hfind : findFirstOverlap defaultConfig seg [seg] = some (seg, ⟨0, 1, 0, 1, 1, true⟩) := by
    rw [findFirstOverlap]
    rw [htmp, if_pos rfl]
    dsimp only
    rw [hov]
    rw [if_pos rfl]
  have h1 : processSegment defaultConfig [] seg = (seg, [seg]) := by
    unfold processSegment processSegmentWith
    rw [if_neg hw]
    simp only [List.reverse_nil]
    rw [findFirstOverlap]
    dsimp only
    rw [if_neg hw]
    rw [if_neg (by simp [defaultConfig])]
    rfl
  have h2 : processSegment defaultConfig [seg] seg =
      (⟨[], seg.startTime, seg.endTime, seg.confidence, seg.language⟩, [seg]) := by
    unfold processSegment processSegmentWith
    rw [if_neg hw]
    simp only [List.reverse_singleton]
    rw [hfind]
    dsimp only
    rw [ite_self, hrem]
    rw [if_pos rfl]
  refine ⟨h1, hov, ?_, ?_⟩
  · rw [h2]
  · rw [h2]

/-- Claim C5 (witness for the amended claim). -/
theorem claim5_witness :
    ("hello".data ≠ [] ∧ (0 : ℚ) < 1) ∧
    processSegment defaultConfig [] ⟨"hello".data, 0, 1, 0.9, []⟩ =
      (⟨"hello".data, 0, 1, 0.9, []⟩, [⟨"hello".data, 0, 1, 0.9, []⟩]) ∧
    (processSegment defaultConfig [⟨"hello".data, 0, 1, 0.9, []⟩]
        ⟨"hello".data, 0, 1, 0.9, []⟩).1.text = [] ∧
    (processSegment defaultConfig [⟨"hello".data, 0, 1, 0.9, []⟩]
        ⟨"hello".data, 0, 1, 0.9, []⟩).2 = [⟨"hello".data, 0, 1, 0.9, []⟩] := by
  have h := claim5_single_word ⟨"hello".data, 0, 1, 0.9, []⟩
    (by decide) (by decide) (by norm_num)
  exact ⟨⟨by decide, by norm_num⟩, h.1, h.2.2.1, h.2.2.2⟩

set_option maxRecDepth 200000 in
/-- Claim C3 (counterexample): processing the one-word segment
`("hi", 1..3)` against a previous `("hi", 0..2)` detects a leading overlap
covering all words (span `[0,1)` of 1 word); the code then returns empty
text with `startTime` unchanged (1), whereas the claimed proportional shift
`removedWordCount/totalWordCount × (endTime − startTime)` would move it to
`1 + (1/1)·(3−1) = 3`. -/
theorem claim3_counterexample :
    (detectOverlap defaultConfig hiPrev hiCur).hasOverlap = true ∧
    (detectOverlap defaultConfig hiPrev hiCur).currWordStart = 0 ∧
    (detectOverlap defaultConfig hiPrev hiCur).currWordEnd = 1 ∧
    (splitWords hiCur.text).length = 1 ∧
    (processSegment defaultConfig [hiPrev] hiCur).1.text = [] ∧
    (processSegment defaultConfig [hiPrev] hiCur).1.startTime = 1 ∧
    hiCur.startTime + (hiCur.endTime - hiCur.startTime) *
      (((detectOverlap defaultConfig hiPrev hiCur).currWordEnd : ℚ) /
        ((splitWords hiCur.text).length : ℚ)) = 3 ∧
    (1 : ℚ) ≠ 3 := by
  with_unfolding_all decide

/-- Claim C3 (amended): for every segment with a detected overlap
(`hasOverlap` true): `endTime`, `confidence` and `language` are always
unchanged; if the span starts at word 0 and dropping the overlapped words
leaves text, the leading words are dropped and `startTime` shifts forward
by `removedWordCount/totalWordCount × (endTime − startTime)`; if the span
starts at word 0 and covers everything, the text becomes empty and
`startTime` stays unchanged (the segment is then suppressed downstream);
otherwise the interior span is spliced out, the remaining words are joined
with a single space, and `startTime` is unchanged. -/
theorem claim3_remove_overlap (cur : Segment) (ov : OverlapInfo)
    (h : ov.hasOverlap = true) :
    ((removeOverlap cur ov).endTime = cur.endTime ∧
      (removeOverlap cur ov).confidence = cur.confidence ∧
      (removeOverlap cur ov).language = cur.language) ∧
    (ov.currWordStart = 0 →
      (List.intercalate [' '] ((splitWords cur.text).drop ov.currWordEnd) = [] →
        removeOverlap cur ov =
          ⟨[], cur.startTime, cur.endTime, cur.confidence, cur.language⟩) ∧
      (List.intercalate [' '] ((splitWords cur.text).drop ov.currWordEnd) ≠ [] →
        removeOverlap cur ov =
          ⟨List.intercalate [' '] ((splitWords cur.text).drop ov.currWordEnd),
            cur.startTime + (cur.endTime - cur.startTime) *
              ((ov.currWordEnd : ℚ) / (((splitWords cur.text).length : Nat) : ℚ)),
            cur.endTime, cur.confidence, cur.language⟩)) ∧
    (ov.currWordStart ≠ 0 →
      (removeOverlap cur ov).startTime = cur.startTime ∧
      (removeOverlap cur ov).text =
        List.intercalate [' ']
          ((splitWords cur.text).take ov.currWordStart ++
            (splitWords cur.text).drop ov.currWordEnd)) := by
  unfold removeOverlap
  rw [if_neg (by simp [h])]
  refine ⟨?_, ?_, ?_⟩
  · by_cases h0 : ov.currWordStart = 0
    · rw [if_pos h0]
      by_cases hc : joinWordsFrom (splitWords cur.text) ov.currWordEnd = []
      · rw [if_pos hc]
        exact ⟨rfl, rfl, rfl⟩
      · rw [if_neg hc]
        exact ⟨rfl, rfl, rfl⟩
    · rw [if_neg h0]
      exact ⟨rfl, rfl, rfl⟩
  · intro h0
    rw [if_pos h0]
    rw [joinWordsFrom_eq]
    constructor
    · intro hnil
      rw [if_pos hnil]
    · intro hnn
      rw [if_neg hnn]
  · intro h0
    rw [if_neg h0]
    refine ⟨rfl, ?_⟩
    dsimp only
    rw [joinWords_zero, joinWordsFrom_eq]
    by_cases hB : List.intercalate [' '] ((splitWords cur.text).drop ov.currWordEnd) = []
    · have hBnil : (splitWords cur.text).drop ov.currWordEnd = [] := by
        by_contra hBne
        exact intercalate_ne_nil_of_mem_ne_nil [' '] _
          (fun w hwB => splitWords_mem_ne_nil cur.text w (List.drop_subset _ _ hwB))
          hBne hB
      rw [if_neg (fun hand => hand.2 hB)]
      rw [if_neg (fun hne => hne hB)]
      rw [hBnil, List.append_nil]
    · by_cases hA : List.intercalate [' '] ((splitWords cur.text).take ov.currWordStart) = []
      · have hAnil : (splitWords cur.text).take ov.currWordStart = [] := by
          by_contra hAne
          exact intercalate_ne_nil_of_mem_ne_nil [' '] _
            (fun w hwA => splitWords_mem_ne_nil cur.text w (List.take_subset _ _ hwA))
            hAne hA
        rw [if_neg (fun hand => hand.1 hA)]
        rw [if_pos hB]
        rw [hAnil, List.nil_append]
      · have hAne : (splitWords cur.text).take ov.currWordStart ≠ [] :=
          fun hh => hA (by rw [hh]; exact intercalate_nil [' '])
        have hBne : (splitWords cur.text).drop ov.currWordEnd ≠ [] :=
          fun hh => hB (by rw [hh]; exact intercalate_nil [' '])
        rw [if_pos ⟨hA, hB⟩]
        rw [intercalate_append_of_ne_nil [' '] _ _ hAne hBne]
        simp [List.append_assoc]

/-- Claim C3 (witness for the amended claim): an interior span on
`"hello world"` is spliced out with `startTime`, `endTime`, `confidence`
and `language` unchanged. -/
theorem claim3_witness :
    ((removeOverlap hwSeg ⟨0, 2, 1, 2, 1, true⟩).endTime = hwSeg.endTime ∧
      (removeOverlap hwSeg ⟨0, 2, 1, 2, 1, true⟩).confidence = hwSeg.confidence ∧
      (removeOverlap hwSeg ⟨0, 2, 1, 2, 1, true⟩).language = hwSeg.language) ∧
    (removeOverlap hwSeg ⟨0, 2, 1, 2, 1, true⟩).startTime = hwSeg.startTime ∧
    (removeOverlap hwSeg ⟨0, 2, 1, 2, 1, true⟩).text =
      List.intercalate [' ']
        ((splitWords hwSeg.text).take 1 ++ (splitWords hwSeg.text).drop 2) := by
  have h := claim3_remove_overlap hwSeg ⟨0, 2, 1, 2, 1, true⟩ rfl
  exact ⟨h.1, (h.2.2 (by decide)).1, (h.2.2 (by decide)).2⟩

/-! ## Ring buffer lemmas -/

theorem add_mod_ne (r s i j : Nat) (hij : i < j) (hj : j < s) :
    (r + i) % s ≠ (r + j) % s := by
  intro hmod
  have h2 : Nat.ModEq s (r + i) (r + j) := hmod
  have h3 : Nat.ModEq s i j := Nat.ModEq.add_left_cancel' r h2
  have h4 : i % s = j % s := h3
  rw [Nat.mod_eq_of_lt (lt_trans hij hj), Nat.mod_eq_of_lt hj] at h4
  omega

theorem writeLoop_fields : ∀ (l : List ℚ) (st : ABuf),
    (writeLoop st l).size = st.size ∧
    (writeLoop st l).readIndex = st.readIndex ∧
    (writeLoop st l).availableSamples = st.availableSamples ∧
    (writeLoop st l).buffer.length = st.buffer.length := by
  intro l
  induction l with
  | nil => intro st; exact ⟨rfl, rfl, rfl, rfl⟩
  | cons x xs ih =>
      intro st
      rw [writeLoop]
      have h := ih ⟨st.buffer.set st.writeIndex x, st.size,
        (st.writeIndex + 1) % st.size, st.readIndex, st.availableSamples⟩
      simpa [List.length_set] using h

theorem writeLoop_writeIndex : ∀ (l : List ℚ) (st : ABuf),
    st.writeIndex % st.size = st.writeIndex →
    (writeLoop st l).writeIndex = (st.writeIndex + l.length) % st.size := by
  intro l
  induction l with
  | nil =>
      intro st h
      rw [writeLoop, List.length_nil, Nat.add_zero]
      exact h.symm
  | cons x xs ih =>
      intro st h
      rw [writeLoop]
      have h1 := ih ⟨st.buffer.set st.writeIndex x, st.size,
        (st.writeIndex + 1) % st.size, st.readIndex, st.availableSamples⟩
        (Nat.mod_mod_of_dvd _ dvd_rfl)
      dsimp at h1
      rw [h1, Nat.mod_add_mod, List.length_cons]
      congr 1
      omega

theorem writeLoop_getD : ∀ (l : List ℚ) (st : ABuf) (base : Nat),
    st.buffer.length = st.size →
    st.writeIndex = (st.readIndex + base) % st.size →
    base + l.length ≤ st.size →
    (∀ i, i < base →
      (writeLoop st l).buffer.getD ((st.readIndex + i) % st.size) 0
        = st.buffer.getD ((st.readIndex + i) % st.size) 0) ∧
    (∀ j, j < l.length →
      (writeLoop st l).buffer.getD ((st.readIndex + base + j) % st.size) 0
        = l.getD j 0) := by
  intro l
  induction l with
  | nil =>
      intro st base _ _ _
      exact ⟨fun i _ => rfl, fun j hj => absurd hj (by simp)⟩
  | cons x xs ih =>
      intro st base hlen hw hle
      rw [writeLoop]
      have hs : 0 < st.size := by
        rw [List.length_cons] at hle
        omega
      have hlen1 : (st.buffer.set st.writeIndex x).length = st.size := by
        rw [List.length_set]
        exact hlen
      have hw1 : (st.writeIndex + 1) % st.size = (st.readIndex + (base + 1)) % st.size := by
        rw [hw, Nat.mod_add_mod]
        congr 1
      have hx := ih ⟨st.buffer.set st.writeIndex x, st.size,
        (st.writeIndex + 1) % st.size, st.readIndex, st.availableSamples⟩ (base + 1)
        hlen1 hw1 (by rw [List.length_cons] at hle; dsimp; omega)
      dsimp at hx
      obtain ⟨hpres, hwrit⟩ := hx
      have hbase_lt : base < st.size := by
        rw [List.length_cons] at hle
        omega
      constructor
      · intro i hi
        rw [hpres i (by omega)]
        have hne : st.writeIndex ≠ (st.readIndex + i) % st.size := by
          rw [hw]
          exact fun hh =>
            add_mod_ne st.readIndex st.size i base hi hbase_lt hh.symm
        simp [List.getD_eq_getElem?_getD, List.getElem?_set_ne hne]
      · intro j hj
        cases j with
        | zero =>
            show (writeLoop ⟨st.buffer.set st.writeIndex x, st.size,
                (st.writeIndex + 1) % st.size, st.readIndex, st.availableSamples⟩
              xs).buffer.getD ((st.readIndex + base) % st.size) 0 = x
            rw [hpres base (by omega)]
            have hwlt : st.writeIndex < st.buffer.length := by
              rw [hlen, hw]
              exact Nat.mod_lt _ hs
            rw [← hw]
            simp [List.getD_eq_getElem?_getD, List.getElem?_set_self, hwlt]
        | succ j =>
            have hjx : j < xs.length := by
              rw [List.length_cons] at hj
              omega
            have h2 := hwrit j hjx
            have hidx : st.readIndex + base + (j + 1) = st.readIndex + (base + 1) + j := by
              omega
            rw [hidx]
            exact h2

theorem getD_range_map : ∀ l : List ℚ,
    (List.range l.length).map (fun j => l.getD j 0) = l := by
  intro l
  induction l with
  | nil => rfl
  | cons x xs ih =>
      rw [List.length_cons, List.range_succ_eq_map]
      simp only [List.map_cons, List.map_map]
      refine congrArg (x :: ·) ?_
      calc (List.range xs.length).map ((fun j => (x :: xs).getD j 0) ∘ (· + 1))
          = (List.range xs.length).map (fun j => xs.getD j 0) := by
            refine List.map_congr_left ?_
            intro j _
            rfl
        _ = xs := ih

theorem ABuf_write_spec (st : ABuf) (data : List ℚ) (h : ABufInv st) :
    (st.write data).1 = min data.length st.getFreeSamples ∧
    ABufInv (st.write data).2 ∧ (st.write data).2.size = st.size ∧
    unreadData (st.write data).2 =
      unreadData st ++ data.take (min data.length st.getFreeSamples) := by
  obtain ⟨hlen, hav, hwi, hri⟩ := h
  by_cases hd : data = []
  · subst hd
    refine ⟨by simp [ABuf.write], ?_, by simp [ABuf.write], by simp [ABuf.write]⟩
    simpa [ABuf.write] using And.intro hlen (And.intro hav (And.intro hwi hri))
  · unfold ABuf.write
    rw [if_neg hd]
    dsimp only
    set k := min data.length (st.size - st.availableSamples) with hk
    have hkle : k ≤ st.size - st.availableSamples := min_le_right _ _
    have htklen : (data.take k).length = k := by
      rw [List.length_take]
      exact min_eq_left (min_le_left _ _)
    obtain ⟨hf1, hf2, hf3, hf4⟩ := writeLoop_fields (data.take k) st
    have hwmod : st.writeIndex % st.size = st.writeIndex := by
      rw [hwi]
      exact Nat.mod_mod_of_dvd _ dvd_rfl
    have hwidx : (writeLoop st (data.take k)).writeIndex
        = (st.writeIndex + k) % st.size := by
      have hh := writeLoop_writeIndex (data.take k) st hwmod
      rw [htklen] at hh
      exact hh
    have hak : st.availableSamples + k ≤ st.size := by omega
    obtain ⟨hpres, hwrit⟩ := writeLoop_getD (data.take k) st st.availableSamples hlen hwi
      (by rw [htklen]; exact hak)
    refine ⟨rfl, ⟨?_, ?_, ?_, ?_⟩, ?_, ?_⟩
    · dsimp only
      rw [hf4, hf1, hlen]
    · dsimp only
      rw [hf1]
      exact hak
    · dsimp only
      rw [hf1, hf2, hwidx, hwi, Nat.mod_add_mod]
      have : st.readIndex + st.availableSamples + k
          = st.readIndex + (st.availableSamples + k) := by omega
      rw [this]
    · dsimp only
      rw [hf1, hf2]
      exact hri
    · dsimp only
      exact hf1
    · unfold unreadData
      dsimp only
      rw [hf1, hf2]
      rw [List.range_add, List.map_append, List.map_map]
      congr 1
      · exact List.map_congr_left (fun i hi => hpres i (List.mem_range.mp hi))
      · have hstep : ∀ j ∈ List.range k,
            ((fun i => (writeLoop st (data.take k)).buffer.getD
                ((st.readIndex + i) % st.size) 0) ∘
              (fun j => st.availableSamples + j)) j = (data.take k).getD j 0 := by
          intro j hj
          have hj' : j < k := List.mem_range.mp hj
          have h2 := hwrit j (by rw [htklen]; exact hj')
          have hidx : st.readIndex + (st.availableSamples + j)
              = st.readIndex + st.availableSamples + j := by omega
          show (writeLoop st (data.take k)).buffer.getD
            ((st.readIndex + (st.availableSamples + j)) % st.size) 0
              = (data.take k).getD j 0
          rw [hidx]
          exact h2
        rw [List.map_congr_left hstep]
        have hmap := getD_range_map (data.take k)
        rw [htklen] at hmap
        exact hmap

theorem readLoop_fields : ∀ (k : Nat) (st : ABuf),
    st.readIndex % st.size = st.readIndex →
    (readLoop st k).2.buffer = st.buffer ∧ (readLoop st k).2.size = st.size ∧
    (readLoop st k).2.writeIndex = st.writeIndex ∧
    (readLoop st k).2.availableSamples = st.availableSamples ∧
    (readLoop st k).2.readIndex = (st.readIndex + k) % st.size := by
  intro k
  induction k with
  | zero =>
      intro st h
      exact ⟨rfl, rfl, rfl, rfl, by rw [Nat.add_zero]; exact h.symm⟩
  | succ k ih =>
      intro st h
      rw [readLoop]
      dsimp only
      have hrec := ih ⟨st.buffer, st.size, st.writeIndex,
        (st.readIndex + 1) % st.size, st.availableSamples⟩
        (Nat.mod_mod_of_dvd _ dvd_rfl)
      dsimp at hrec
      refine ⟨hrec.1, hrec.2.1, hrec.2.2.1, hrec.2.2.2.1, ?_⟩
      rw [hrec.2.2.2.2, Nat.mod_add_mod]
      have hadd : st.readIndex + 1 + k = st.readIndex + (k + 1) := by omega
      rw [hadd]

theorem ABuf_read_inv (st : ABuf) (n : Nat) (h : ABufInv st) :
    ABufInv (st.read n).2 ∧ (st.read n).2.size = st.size := by
  obtain ⟨hlen, hav, hwi, hri⟩ := h
  by_cases hn : n = 0
  · subst hn
    exact ⟨⟨hlen, hav, hwi, hri⟩, rfl⟩
  · unfold ABuf.read
    rw [if_neg hn]
    dsimp only
    set k := min n st.availableSamples with hk
    have hkle : k ≤ st.availableSamples := min_le_right _ _
    obtain ⟨hb, hsz, hwx, hax, hrx⟩ := readLoop_fields k st hri
    refine ⟨⟨?_, ?_, ?_, ?_⟩, ?_⟩
    · dsimp only
      rw [hb, hsz, hlen]
    · dsimp only
      rw [hsz]
      omega
    · dsimp only
      rw [hwx, hsz, hrx, hwi, Nat.mod_add_mod]
      have hadd : st.readIndex + k + (st.availableSamples - k)
          = st.readIndex + st.availableSamples := by omega
      rw [hadd]
    · dsimp only
      rw [hrx, hsz]
      exact Nat.mod_mod_of_dvd _ dvd_rfl
    · dsimp only
      exact hsz

theorem ABuf_clear_inv (st : ABuf) (h : ABufInv st) :
    ABufInv st.clear ∧ st.clear.size = st.size := by
  obtain ⟨hlen, -, -, -⟩ := h
  exact ⟨⟨hlen, Nat.zero_le _, by simp [ABuf.clear], by simp [ABuf.clear]⟩, rfl⟩

theorem ABuf_init_inv (cap : Nat) : ABufInv (ABuf.init cap) :=
  ⟨by simp [ABuf.init], Nat.zero_le _, by simp [ABuf.init], by simp [ABuf.init]⟩

theorem applyOps_inv (ops : List ABufOp) : ∀ st : ABuf, ABufInv st →
    ABufInv (applyOps st ops) ∧ (applyOps st ops).size = st.size := by
  induction ops with
  | nil => intro st h; exact ⟨h, rfl⟩
  | cons op ops ih =>
      intro st h
      have hstep : ABufInv (applyOp st op) ∧ (applyOp st op).size = st.size := by
        cases op with
        | write d =>
            have hw := ABuf_write_spec st d h
            exact ⟨hw.2.1, hw.2.2.1⟩
        | read n => exact ABuf_read_inv st n h
        | clear => exact ABuf_clear_inv st h
      have hrest := ih (applyOp st op) hstep.1
      constructor
      · show ABufInv (applyOps (applyOp st op) ops)
        exact hrest.1
      · show (applyOps (applyOp st op) ops).size = st.size
        rw [hrest.2, hstep.2]

/-- Claim C6: for every sequence of write/read/clear operations on a buffer
of capacity `C`, `getAvailableSamples + getFreeSamples = C` holds after
every operation, with the sample count between 0 and `C`; and on any state
satisfying the ring-buffer invariant, a write of `n` samples with `f` free
writes exactly `min n f` samples, returns that count, and appends exactly
those samples after the unread data without disturbing it (no unread sample
is overwritten). -/
theorem claim6_ring_buffer (cap : Nat) (ops : List ABufOp) (st : ABuf)
    (data : List ℚ) (h : ABufInv st) :
    ((applyOps (ABuf.init cap) ops).getAvailableSamples +
        (applyOps (ABuf.init cap) ops).getFreeSamples = cap ∧
      (applyOps (ABuf.init cap) ops).getAvailableSamples ≤ cap) ∧
    (st.write data).1 = min data.length st.getFreeSamples ∧
    unreadData (st.write data).2 =
      unreadData st ++ data.take (min data.length st.getFreeSamples) := by
  have happ := applyOps_inv ops (ABuf.init cap) (ABuf_init_inv cap)
  have hsize : (applyOps (ABuf.init cap) ops).size = cap := happ.2
  obtain ⟨-, hav, -, -⟩ := happ.1
  have hw := ABuf_write_spec st data h
  refine ⟨⟨?_, ?_⟩, hw.1, hw.2.2.2⟩
  · unfold ABuf.getAvailableSamples ABuf.getFreeSamples
    omega
  · unfold ABuf.getAvailableSamples
    omega

/-- Claim C6 (witness): capacity 3, a write of two samples then a read of
one; and a write of `[5, 6]` into a buffer with one free slot writes exactly
one sample, appending it after the unread data. -/
theorem claim6_witness :
    ((applyOps (ABuf.init 3) [ABufOp.write [1, 2], ABufOp.read 1]).getAvailableSamples +
        (applyOps (ABuf.init 3)
          [ABufOp.write [1, 2], ABufOp.read 1]).getFreeSamples = 3 ∧
      (applyOps (ABuf.init 3)
        [ABufOp.write [1, 2], ABufOp.read 1]).getAvailableSamples ≤ 3) ∧
    ((⟨[1, 2, 0], 3, 2, 0, 2⟩ : ABuf).write [5, 6]).1 =
      min ([5, 6] : List ℚ).length (⟨[1, 2, 0], 3, 2, 0, 2⟩ : ABuf).getFreeSamples ∧
    unreadData ((⟨[1, 2, 0], 3, 2, 0, 2⟩ : ABuf).write [5, 6]).2 =
      unreadData ⟨[1, 2, 0], 3, 2, 0, 2⟩ ++
        ([5, 6] : List ℚ).take
          (min ([5, 6] : List ℚ).length (⟨[1, 2, 0], 3, 2, 0, 2⟩ : ABuf).getFreeSamples) :=
  claim6_ring_buffer 3 [ABufOp.write [1, 2], ABufOp.read 1]
    ⟨[1, 2, 0], 3, 2, 0, 2⟩ [5, 6] (by decide)
